import Mathlib

/-!
Verification of the normalization + matching engine of `src/main.py`.

Strings are modelled as `List Char` (`Str`).  The Python library calls that
`main.py` makes are modelled character-wise, restricted to the code points
that occur in this repository's domain (ASCII, CJK ideographs, kana, the
CJK punctuation of `PUNCT_TRANSLATION`, and Unicode whitespace):

* `nfkcChar` models `unicodedata.normalize("NFKC", ·)` on the halfwidth /
  fullwidth forms block (U+FF01..U+FF5E folds to ASCII) and the ideographic
  space U+3000 (folds to an ASCII space); identity elsewhere.
* `lowerChar` models `str.lower` on the basic Latin letters; CJK text has
  no case.
* `isSpacePy` models the character set of Python's `\s` / `str.strip`;
  `isLineBreakPy` models the break set of `str.splitlines`.
* `isWordPy` models Python's Unicode-aware `\w` on the scripts above.
-/

namespace PyQM

abbrev Str := List Char

def str (s : String) : Str := s.data

/-- Code points Python's `str.splitlines` breaks on. -/
def isLineBreakPy (c : Char) : Bool :=
  (0xA ≤ c.toNat && c.toNat ≤ 0xD) || (0x1C ≤ c.toNat && c.toNat ≤ 0x1E) ||
  c.toNat = 0x85 || c.toNat = 0x2028 || c.toNat = 0x2029

/-- Code points matched by Python's `\s` and stripped by `str.strip()`. -/
def isSpacePy (c : Char) : Bool :=
  c.toNat = 0x20 || (0x9 ≤ c.toNat && c.toNat ≤ 0xD) ||
  (0x1C ≤ c.toNat && c.toNat ≤ 0x1F) || c.toNat = 0x85 || c.toNat = 0xA0 ||
  c.toNat = 0x1680 || (0x2000 ≤ c.toNat && c.toNat ≤ 0x200A) ||
  c.toNat = 0x2028 || c.toNat = 0x2029 || c.toNat = 0x202F ||
  c.toNat = 0x205F || c.toNat = 0x3000

/-- Modelled from `unicodedata.normalize("NFKC", ·)`, character-wise on the
fullwidth forms block and the ideographic space; identity elsewhere. -/
def nfkcChar (c : Char) : Char :=
  if 0xFF01 ≤ c.toNat ∧ c.toNat ≤ 0xFF5E then Char.ofNat (c.toNat - 0xFEE0)
  else if c.toNat = 0x3000 then ' '
  else c

def nfkc (s : Str) : Str := s.map nfkcChar

/-- The table `PUNCT_TRANSLATION` of `src/main.py` (`str.maketrans`). -/
def punctTable : List (Char × Char) :=
  [('，', ','), ('。', '.'), ('：', ':'), ('；', ';'), ('？', '?'),
   ('！', '!'), ('（', '('), ('）', ')'), ('【', '['), ('】', ']'),
   ('《', '<'), ('》', '>'), ('“', '"'), ('”', '"'), ('‘', '\''),
   ('’', '\'')]

/-- `str.translate(PUNCT_TRANSLATION)`, character-wise table lookup. -/
def translateChar (c : Char) : Char :=
  match punctTable.find? (fun p => p.1 = c) with
  | some p => p.2
  | none => c

def translate (s : Str) : Str := s.map translateChar

/-- Modelled from `str.lower` (ASCII range; the CJK content has no case). -/
def lowerChar (c : Char) : Char :=
  if 65 ≤ c.toNat ∧ c.toNat ≤ 90 then Char.ofNat (c.toNat + 32) else c

def pyLower (s : Str) : Str := s.map lowerChar

/-- Modelled from Python's Unicode `\w` (word character) on the scripts of
this repository: ASCII alphanumerics and underscore, Latin-1/Extended
letters, kana, and the CJK unified ideographs. -/
def isWordPy (c : Char) : Bool :=
  (0x30 ≤ c.toNat && c.toNat ≤ 0x39) || (0x41 ≤ c.toNat && c.toNat ≤ 0x5A) ||
  (0x61 ≤ c.toNat && c.toNat ≤ 0x7A) || c.toNat = 0x5F ||
  (0xC0 ≤ c.toNat && c.toNat ≤ 0x24F && c.toNat ≠ 0xD7 && c.toNat ≠ 0xF7) ||
  (0x3041 ≤ c.toNat && c.toNat ≤ 0x3096) ||
  (0x30A1 ≤ c.toNat && c.toNat ≤ 0x30FA) ||
  (0x3400 ≤ c.toNat && c.toNat ≤ 0x4DBF) ||
  (0x4E00 ≤ c.toNat && c.toNat ≤ 0x9FFF)

/-- Python `str.splitlines`: split at every line-break character, treating
`"\r\n"` as a single break, with no entry for a trailing break. -/
def splitlinesPy : Str → List Str
  | [] => []
  | c :: cs =>
    if isLineBreakPy c then
      match cs with
      | [] => [[]]
      | d :: cs' =>
        if c.toNat = 0xD ∧ d.toNat = 0xA then
          [] :: (if cs'.isEmpty then [] else splitlinesPy cs')
        else
          [] :: splitlinesPy (d :: cs')
    else
      match splitlinesPy cs with
      | [] => [[c]]
      | l :: ls => (c :: l) :: ls

/-- Python `line.strip()`: drop whitespace from both ends. -/
def stripPy (s : Str) : Str :=
  ((s.dropWhile isSpacePy).reverse.dropWhile isSpacePy).reverse

/-- Helper for `collapseWs`: the flag records whether we are inside a
whitespace run whose replacement space was already emitted. -/
def collapseAux : Bool → Str → Str
  | _, [] => []
  | inRun, c :: cs =>
    if isSpacePy c then
      if inRun then collapseAux true cs else ' ' :: collapseAux true cs
    else c :: collapseAux false cs

/-- Python `re.sub(r"\s+", " ", line)`: replace each maximal run of
whitespace by one ASCII space. -/
def collapseWs (s : Str) : Str := collapseAux false s

/-- Python `"\n".join(lines)`. -/
def joinLines : List Str → Str
  | [] => []
  | [l] => l
  | l :: ls => l ++ '\n' :: joinLines ls

/-- The per-line loop of `clean_text`: strip each line, drop lines that
became empty, collapse whitespace runs in the survivors. -/
def cleanLines (s : Str) : List Str :=
  (((splitlinesPy (translate (nfkc s))).map stripPy).filter
    (fun l => !l.isEmpty)).map collapseWs

/-- `clean_text` of `src/main.py`: NFKC, punctuation translation, per-line
strip / drop-empty / whitespace-collapse, rejoin with `"\n"`, lowercase. -/
def clean_text (s : Str) : Str :=
  if s.isEmpty then [] else pyLower (joinLines (cleanLines s))

/-- The character class kept by `re.sub(r"[\s\W]+", "", ·)`: kept iff a
word character and not whitespace. -/
def keepB (c : Char) : Bool := isWordPy c && !isSpacePy c

/-- `normalize_for_match` of `src/main.py`: NFKC, punctuation translation,
lowercase, then `re.sub(r"[\s\W]+", "", ·)`. -/
def normalize_for_match (s : Str) : Str :=
  (pyLower (translate (nfkc s))).filter keepB

/-- Whitespace insertion: `WsIns s t` holds when `t` is `s` with extra
whitespace characters inserted at arbitrary positions. -/
inductive WsIns : Str → Str → Prop
  | nil : WsIns [] []
  | keep (c : Char) {s t : Str} : WsIns s t → WsIns (c :: s) (c :: t)
  | ins (c : Char) {s t : Str} (h : isSpacePy c = true) :
      WsIns s t → WsIns s (c :: t)

/-- Python's substring test `needle in hay` (contiguous occurrence). -/
def pyIn (needle : Str) : Str → Bool
  | [] => needle.isEmpty
  | c :: t => needle.isPrefixOf (c :: t) || pyIn needle t

/-- The matching condition of `match_keywords` in `src/main.py`:
`keyword.lower() in text or (normalized_keyword and normalized_keyword in
normalized_text)`, where `text` is the cleaned document text. -/
def matchCond (text kw : Str) : Bool :=
  pyIn (pyLower kw) text ||
  (!(normalize_for_match kw).isEmpty &&
    pyIn (normalize_for_match kw) (normalize_for_match text))

/-- The per-document loop body of `match_keywords`: keywords (in list
order) whose condition holds are appended to `found`. -/
def matchDoc (kws : List Str) (text : Str) : List Str :=
  kws.filter (fun kw => matchCond text kw)

/-- `match_keywords` over a corpus of (subject key, cleaned text) pairs;
the directory iteration of `src/main.py` supplies the pairs. -/
def match_keywords (kws : List Str) (docs : List (Str × Str)) :
    List (Str × List Str) :=
  docs.map (fun d => (d.1, matchDoc kws d.2))

/-- Python string comparison (used by `sorted`): lexicographic on code
points, with a proper prefix ordered first. -/
def lexLe : Str → Str → Bool
  | [], _ => true
  | _ :: _, [] => false
  | a :: as, b :: bs =>
    a.toNat < b.toNat || (a.toNat = b.toNat && lexLe as bs)

def LexLe (a b : Str) : Prop := lexLe a b = true

instance : DecidableRel LexLe :=
  fun a b => inferInstanceAs (Decidable (lexLe a b = true))

/-- The sort key `lambda item: (-item[1], item[0])` used by both
`build_summary` and `list_keywords`: count descending, then name
ascending. -/
def rankRel (a b : Str × Nat) : Prop :=
  b.2 < a.2 ∨ (a.2 = b.2 ∧ LexLe a.1 b.1)

instance : DecidableRel rankRel :=
  fun a b => inferInstanceAs (Decidable (b.2 < a.2 ∨ (a.2 = b.2 ∧ LexLe a.1 b.1)))

/-- `keyword_counts` of `build_summary` (and `counts` of `list_keywords`):
the number of subjects whose match list contains the keyword (the per-
subject `set(matches)` makes each subject count at most once). -/
def keywordHitCount (ms : List (Str × List Str)) (kw : Str) : Nat :=
  ms.countP (fun p => p.2.contains kw)

/-- `teacher_counts` of `build_summary`: subject paired with its number of
distinct matched keywords (`len(set(matches))`). -/
def teacherCounts (ms : List (Str × List Str)) : List (Str × Nat) :=
  ms.map (fun p => (p.1, p.2.dedup.length))

/-- `top_teachers` of `build_summary`: sort by (count desc, key asc), take 3. -/
def topTeachers (ms : List (Str × List Str)) : List (Str × Nat) :=
  ((teacherCounts ms).insertionSort rankRel).take 3

def natStr (n : Nat) : Str := (Nat.repr n).data

/-- The rendered top-3 section body: one `f"{teacher}: {count}"` line per
entry, or the placeholder `"无"` when there are no subjects. -/
def topLines (ms : List (Str × List Str)) : List Str :=
  if (topTeachers ms).isEmpty then [str "无"]
  else (topTeachers ms).map (fun p => p.1 ++ str ": " ++ natStr p.2)

/-- `no_match` of `build_summary`: subjects with distinct-match count 0,
sorted ascending. -/
def noMatchTeachers (ms : List (Str × List Str)) : List Str :=
  (((teacherCounts ms).filter (fun p => p.2 == 0)).map Prod.fst).insertionSort LexLe

/-- The rendered zero-match section body: the sorted subject keys, or the
placeholder `"无"` when the list is empty. -/
def zeroMatchLines (ms : List (Str × List Str)) : List Str :=
  if (noMatchTeachers ms).isEmpty then [str "无"] else noMatchTeachers ms

/-- The per-keyword count section body of `build_summary`: one
`f"{keyword}: {count}"` line per keyword, in keyword-list order. -/
def keywordCountLines (kws : List Str) (ms : List (Str × List Str)) : List Str :=
  kws.map (fun kw => kw ++ str ": " ++ natStr (keywordHitCount ms kw))

/-- `build_summary` of `src/main.py`: the three labelled sections joined
with `"\n"`, plus a trailing newline. -/
def build_summary (kws : List Str) (ms : List (Str × List Str)) : Str :=
  joinLines ([str "[关键词命中统计]"] ++ keywordCountLines kws ms ++ [[]] ++
    [str "[命中关键词最多的教师 Top3]"] ++ topLines ms ++ [[]] ++
    [str "[未命中任何关键词的教师]"] ++ zeroMatchLines ms) ++ ['\n']

/-- The distinct keywords occurring in some subject's match list: the keys
of `counts` in `list_keywords` before the zero-fill loop.  (Python's
`set` iteration order is arbitrary; `sorted` below makes the result
order-independent, so first-occurrence order is used here.) -/
def occurringKeywords (ms : List (Str × List Str)) : List Str :=
  ((ms.map (fun p => p.2.dedup)).flatten).dedup

/-- The lines printed by `list_keywords` of `src/main.py`.  Note that
`ordered` is computed from `counts` *before* the zero-fill loop runs, so
the zero-fill only shows up through the `if not ordered` fallback. -/
def list_keywords (kws : List Str) (ms : List (Str × List Str)) : List Str :=
  let ordered :=
    ((occurringKeywords ms).map
      (fun k => (k, keywordHitCount ms k))).insertionSort rankRel
  let ordered2 := if ordered.isEmpty then kws.map (fun k => (k, 0)) else ordered
  ordered2.map (fun p => p.1 ++ str ": " ++ natStr p.2)

/-- The sorted subject list computed by `search_keyword`. -/
def searchTeachers (kw : Str) (ms : List (Str × List Str)) : List Str :=
  ((ms.filter (fun p => p.2.contains kw)).map Prod.fst).insertionSort LexLe

/-- The lines printed by `search_keyword` of `src/main.py`. -/
def search_keyword (kw : Str) (ms : List (Str × List Str)) : List Str :=
  if (searchTeachers kw ms).isEmpty then [str "无匹配教师"]
  else searchTeachers kw ms

/-! ### Character-level lemmas -/

theorem toNat_Char_ofNat {n : Nat} (h : n < 0xd800) : (Char.ofNat n).toNat = n := by
  have hv : n.isValidChar := Or.inl h
  simp [Char.ofNat, hv, Char.ofNatAux, Char.toNat, UInt32.toNat]

theorem char_toNat_inj {a b : Char} (h : a.toNat = b.toNat) : a = b :=
  Char.eq_of_val_eq (UInt32.toNat.inj h)

theorem char_ne_of_toNat_ne {a b : Char} (h : a.toNat ≠ b.toNat) : a ≠ b :=
  fun hab => h (hab ▸ rfl)

theorem nfkcChar_eq_of_not (h1 : ¬(0xFF01 ≤ c.toNat ∧ c.toNat ≤ 0xFF5E))
    (h2 : c.toNat ≠ 0x3000) : nfkcChar c = c := by
  unfold nfkcChar
  rw [if_neg h1, if_neg h2]

theorem nfkcChar_toNat_of_ff (h1 : 0xFF01 ≤ c.toNat) (h2 : c.toNat ≤ 0xFF5E) :
    (nfkcChar c).toNat = c.toNat - 0xFEE0 := by
  unfold nfkcChar
  rw [if_pos ⟨h1, h2⟩]
  exact toNat_Char_ofNat (by omega)

/-- The output of `nfkcChar` is either an ASCII character (below `0x7F`)
or the input character itself outside the two folded ranges. -/
theorem nfkcChar_cases (c : Char) :
    (nfkcChar c).toNat ≤ 0x7E ∨
      (nfkcChar c = c ∧ ¬(0xFF01 ≤ c.toNat ∧ c.toNat ≤ 0xFF5E) ∧ c.toNat ≠ 0x3000) := by
  by_cases h1 : 0xFF01 ≤ c.toNat ∧ c.toNat ≤ 0xFF5E
  · left
    rw [nfkcChar_toNat_of_ff h1.1 h1.2]
    omega
  · by_cases h2 : c.toNat = 0x3000
    · left
      unfold nfkcChar
      rw [if_neg h1, if_pos h2]
      decide
    · right
      exact ⟨nfkcChar_eq_of_not h1 h2, h1, h2⟩

theorem nfkcChar_nfkcChar (c : Char) : nfkcChar (nfkcChar c) = nfkcChar c := by
  rcases nfkcChar_cases c with h | h
  · exact nfkcChar_eq_of_not (by omega) (by omega)
  · rw [h.1]
    exact h.1

theorem bool_eq_of_iff {a b : Bool} (h : a = true ↔ b = true) : a = b := by
  cases a <;> cases b <;> simp_all

/-- The whitespace class, as an arithmetic predicate on the code point. -/
def IsSpaceN (n : Nat) : Prop :=
  n = 0x20 ∨ (0x9 ≤ n ∧ n ≤ 0xD) ∨ (0x1C ≤ n ∧ n ≤ 0x1F) ∨ n = 0x85 ∨
  n = 0xA0 ∨ n = 0x1680 ∨ (0x2000 ≤ n ∧ n ≤ 0x200A) ∨ n = 0x2028 ∨
  n = 0x2029 ∨ n = 0x202F ∨ n = 0x205F ∨ n = 0x3000

theorem isSpacePy_iff {c : Char} : isSpacePy c = true ↔ IsSpaceN c.toNat := by
  simp only [isSpacePy, IsSpaceN, Bool.or_eq_true, Bool.and_eq_true,
    decide_eq_true_eq]
  omega

/-- The line-break class, as an arithmetic predicate on the code point. -/
def IsBreakN (n : Nat) : Prop :=
  (0xA ≤ n ∧ n ≤ 0xD) ∨ (0x1C ≤ n ∧ n ≤ 0x1E) ∨ n = 0x85 ∨ n = 0x2028 ∨
  n = 0x2029

theorem isLineBreakPy_iff {c : Char} : isLineBreakPy c = true ↔ IsBreakN c.toNat := by
  simp only [isLineBreakPy, IsBreakN, Bool.or_eq_true, Bool.and_eq_true,
    decide_eq_true_eq]
  omega

/-- The word-character class, as an arithmetic predicate on the code point. -/
def IsWordN (n : Nat) : Prop :=
  (0x30 ≤ n ∧ n ≤ 0x39) ∨ (0x41 ≤ n ∧ n ≤ 0x5A) ∨ (0x61 ≤ n ∧ n ≤ 0x7A) ∨
  n = 0x5F ∨ (0xC0 ≤ n ∧ n ≤ 0x24F ∧ n ≠ 0xD7 ∧ n ≠ 0xF7) ∨
  (0x3041 ≤ n ∧ n ≤ 0x3096) ∨ (0x30A1 ≤ n ∧ n ≤ 0x30FA) ∨
  (0x3400 ≤ n ∧ n ≤ 0x4DBF) ∨ (0x4E00 ≤ n ∧ n ≤ 0x9FFF)

theorem isWordPy_iff {c : Char} : isWordPy c = true ↔ IsWordN c.toNat := by
  simp only [isWordPy, IsWordN, Bool.or_eq_true, Bool.and_eq_true,
    decide_eq_true_eq, ne_eq, bne_iff_ne]
  omega

theorem isSpacePy_nfkcChar (c : Char) : isSpacePy (nfkcChar c) = isSpacePy c := by
  apply bool_eq_of_iff
  rw [isSpacePy_iff, isSpacePy_iff]
  by_cases h1 : 0xFF01 ≤ c.toNat ∧ c.toNat ≤ 0xFF5E
  · rw [nfkcChar_toNat_of_ff h1.1 h1.2]
    simp only [IsSpaceN]
    omega
  · by_cases h2 : c.toNat = 0x3000
    · unfold nfkcChar
      rw [if_neg h1, if_pos h2]
      simp only [IsSpaceN, h2]
      decide
    · rw [nfkcChar_eq_of_not h1 h2]

theorem isLineBreakPy_nfkcChar (c : Char) :
    isLineBreakPy (nfkcChar c) = isLineBreakPy c := by
  apply bool_eq_of_iff
  rw [isLineBreakPy_iff, isLineBreakPy_iff]
  by_cases h1 : 0xFF01 ≤ c.toNat ∧ c.toNat ≤ 0xFF5E
  · rw [nfkcChar_toNat_of_ff h1.1 h1.2]
    simp only [IsBreakN]
    omega
  · by_cases h2 : c.toNat = 0x3000
    · unfold nfkcChar
      rw [if_neg h1, if_pos h2]
      simp only [IsBreakN, h2]
      decide
    · rw [nfkcChar_eq_of_not h1 h2]

theorem translateChar_cases (c : Char) :
    translateChar c = c ∨ ∃ p ∈ punctTable, p.1 = c ∧ translateChar c = p.2 := by
  unfold translateChar
  cases hf : punctTable.find? (fun p => p.1 = c) with
  | none => exact Or.inl rfl
  | some p =>
    refine Or.inr ⟨p, List.mem_of_find?_eq_some hf, ?_, rfl⟩
    have h := List.find?_some hf
    simpa using h

theorem translateChar_eq_self (h : ∀ p ∈ punctTable, p.1 ≠ c) :
    translateChar c = c := by
  unfold translateChar
  have hf : punctTable.find? (fun p => p.1 = c) = none := by
    rw [List.find?_eq_none]
    intro p hp
    simpa using h p hp
  rw [hf]

theorem punct_fst_vals : ∀ p ∈ punctTable,
    p.1.toNat = 0xFF0C ∨ p.1.toNat = 0x3002 ∨ p.1.toNat = 0xFF1A ∨
    p.1.toNat = 0xFF1B ∨ p.1.toNat = 0xFF1F ∨ p.1.toNat = 0xFF01 ∨
    p.1.toNat = 0xFF08 ∨ p.1.toNat = 0xFF09 ∨ p.1.toNat = 0x3010 ∨
    p.1.toNat = 0x3011 ∨ p.1.toNat = 0x300A ∨ p.1.toNat = 0x300B ∨
    p.1.toNat = 0x201C ∨ p.1.toNat = 0x201D ∨ p.1.toNat = 0x2018 ∨
    p.1.toNat = 0x2019 := by decide

theorem punct_snd_vals : ∀ p ∈ punctTable,
    p.2.toNat = 0x2C ∨ p.2.toNat = 0x2E ∨ p.2.toNat = 0x3A ∨
    p.2.toNat = 0x3B ∨ p.2.toNat = 0x3F ∨ p.2.toNat = 0x21 ∨
    p.2.toNat = 0x28 ∨ p.2.toNat = 0x29 ∨ p.2.toNat = 0x5B ∨
    p.2.toNat = 0x5D ∨ p.2.toNat = 0x3C ∨ p.2.toNat = 0x3E ∨
    p.2.toNat = 0x22 ∨ p.2.toNat = 0x27 := by decide

theorem punct_snd_fix : ∀ p ∈ punctTable, translateChar p.2 = p.2 := by decide

theorem lowerChar_toNat (c : Char) :
    (65 ≤ c.toNat ∧ c.toNat ≤ 90 ∧ (lowerChar c).toNat = c.toNat + 32) ∨
    (¬(65 ≤ c.toNat ∧ c.toNat ≤ 90) ∧ lowerChar c = c) := by
  unfold lowerChar
  by_cases h : 65 ≤ c.toNat ∧ c.toNat ≤ 90
  · rw [if_pos h]
    exact Or.inl ⟨h.1, h.2, toNat_Char_ofNat (by omega)⟩
  · rw [if_neg h]
    exact Or.inr ⟨h, rfl⟩

theorem nfkc_fix_translateChar (h : nfkcChar d = d) :
    nfkcChar (translateChar d) = translateChar d := by
  rcases translateChar_cases d with h1 | ⟨p, hp, hpd, h1⟩
  · rw [h1]
    exact h
  · rw [h1]
    have h2 := punct_snd_vals p hp
    exact nfkcChar_eq_of_not (by omega) (by omega)

theorem nfkc_fix_lowerChar (h : nfkcChar d = d) :
    nfkcChar (lowerChar d) = lowerChar d := by
  rcases lowerChar_toNat d with ⟨h1, h2, h3⟩ | ⟨h1, h2⟩
  · exact nfkcChar_eq_of_not (by omega) (by omega)
  · rw [h2]
    exact h

theorem translateChar_translateChar (c : Char) :
    translateChar (translateChar c) = translateChar c := by
  rcases translateChar_cases c with h1 | ⟨p, hp, _, h1⟩
  · rw [h1]
    exact h1
  · rw [h1]
    exact punct_snd_fix p hp

theorem trans_fix_lowerChar (h : translateChar d = d) :
    translateChar (lowerChar d) = lowerChar d := by
  rcases lowerChar_toNat d with ⟨h1, h2, h3⟩ | ⟨h1, h2⟩
  · apply translateChar_eq_self
    intro p hp
    apply char_ne_of_toNat_ne
    have h4 := punct_fst_vals p hp
    omega
  · rw [h2]
    exact h

theorem lowerChar_lowerChar (c : Char) :
    lowerChar (lowerChar c) = lowerChar c := by
  rcases lowerChar_toNat c with ⟨h1, h2, h3⟩ | ⟨h1, h2⟩
  · rcases lowerChar_toNat (lowerChar c) with ⟨g1, g2, g3⟩ | ⟨g1, g2⟩
    · omega
    · exact g2
  · rw [h2, h2]

theorem isSpacePy_lowerChar (c : Char) : isSpacePy (lowerChar c) = isSpacePy c := by
  apply bool_eq_of_iff
  rw [isSpacePy_iff, isSpacePy_iff]
  rcases lowerChar_toNat c with ⟨h1, h2, h3⟩ | ⟨h1, h2⟩
  · rw [h3]
    simp only [IsSpaceN]
    omega
  · rw [h2]

theorem isLineBreakPy_lowerChar (c : Char) :
    isLineBreakPy (lowerChar c) = isLineBreakPy c := by
  apply bool_eq_of_iff
  rw [isLineBreakPy_iff, isLineBreakPy_iff]
  rcases lowerChar_toNat c with ⟨h1, h2, h3⟩ | ⟨h1, h2⟩
  · rw [h3]
    simp only [IsBreakN]
    omega
  · rw [h2]

theorem isWordPy_lowerChar (c : Char) : isWordPy (lowerChar c) = isWordPy c := by
  apply bool_eq_of_iff
  rw [isWordPy_iff, isWordPy_iff]
  rcases lowerChar_toNat c with ⟨h1, h2, h3⟩ | ⟨h1, h2⟩
  · rw [h3]
    simp only [IsWordN]
    omega
  · rw [h2]

theorem punct_not_space : ∀ p ∈ punctTable,
    isSpacePy p.1 = false ∧ isSpacePy p.2 = false := by decide

theorem punct_not_break : ∀ p ∈ punctTable,
    isLineBreakPy p.1 = false ∧ isLineBreakPy p.2 = false := by decide

theorem punct_not_word : ∀ p ∈ punctTable,
    isWordPy p.1 = false ∧ isWordPy p.2 = false := by decide

theorem isSpacePy_translateChar (c : Char) :
    isSpacePy (translateChar c) = isSpacePy c := by
  rcases translateChar_cases c with h1 | ⟨p, hp, hpd, h1⟩
  · rw [h1]
  · rw [h1]
    have h2 := punct_not_space p hp
    rw [h2.2, ← hpd, h2.1]

theorem isLineBreakPy_translateChar (c : Char) :
    isLineBreakPy (translateChar c) = isLineBreakPy c := by
  rcases translateChar_cases c with h1 | ⟨p, hp, hpd, h1⟩
  · rw [h1]
  · rw [h1]
    have h2 := punct_not_break p hp
    rw [h2.2, ← hpd, h2.1]

theorem isWordPy_translateChar (c : Char) :
    isWordPy (translateChar c) = isWordPy c := by
  rcases translateChar_cases c with h1 | ⟨p, hp, hpd, h1⟩
  · rw [h1]
  · rw [h1]
    have h2 := punct_not_word p hp
    rw [h2.2, ← hpd, h2.1]

theorem isWordPy_eq_false_of_space (h : isSpacePy c = true) :
    isWordPy c = false := by
  cases hw : isWordPy c with
  | false => rfl
  | true =>
    exfalso
    have h2 := isSpacePy_iff.mp h
    have h3 := isWordPy_iff.mp hw
    simp only [IsSpaceN] at h2
    simp only [IsWordN] at h3
    omega

theorem isSpacePy_of_break (h : isLineBreakPy c = true) : isSpacePy c = true := by
  rw [isSpacePy_iff]
  have h2 := isLineBreakPy_iff.mp h
  simp only [IsBreakN] at h2
  simp only [IsSpaceN]
  omega

theorem map_eq_self {α : Type} {f : α → α} {l : List α} (h : ∀ c ∈ l, f c = c) :
    l.map f = l := by
  induction l with
  | nil => rfl
  | cons c cs ih =>
    simp only [List.map_cons, h c (List.mem_cons_self c cs),
      ih (fun d hd => h d (List.mem_cons_of_mem c hd))]

theorem pyLower_pyLower (l : Str) : pyLower (pyLower l) = pyLower l := by
  unfold pyLower
  rw [List.map_map]
  apply List.map_congr_left
  intro c _
  exact lowerChar_lowerChar c

theorem head?_dropWhile_space {l : Str} {c : Char}
    (h : (l.dropWhile isSpacePy).head? = some c) : isSpacePy c = false := by
  induction l with
  | nil => simp [List.dropWhile] at h
  | cons a as ih =>
    rw [List.dropWhile_cons] at h
    by_cases ha : isSpacePy a = true
    · rw [if_pos ha] at h
      exact ih h
    · rw [if_neg ha] at h
      simp only [List.head?_cons, Option.some.injEq] at h
      subst h
      simpa using ha

theorem dropWhile_eq_self_of_head {l : Str}
    (h : ∀ c, l.head? = some c → isSpacePy c = false) :
    l.dropWhile isSpacePy = l := by
  cases l with
  | nil => rfl
  | cons a as =>
    rw [List.dropWhile_cons, if_neg]
    simp [h a rfl]

theorem stripPy_eq_self {l : Str}
    (h1 : ∀ c, l.head? = some c → isSpacePy c = false)
    (h2 : ∀ c, l.getLast? = some c → isSpacePy c = false) : stripPy l = l := by
  unfold stripPy
  rw [dropWhile_eq_self_of_head h1, dropWhile_eq_self_of_head, List.reverse_reverse]
  intro c hc
  rw [List.head?_reverse] at hc
  exact h2 c hc

theorem stripPy_eq_nil_of_space {l : Str} (h : ∀ c ∈ l, isSpacePy c = true) :
    stripPy l = [] := by
  unfold stripPy
  have h1 : l.dropWhile isSpacePy = [] := by
    rw [List.dropWhile_eq_nil_iff]
    exact fun c hc => h c hc
  rw [h1]
  rfl

theorem mem_of_mem_stripPy {l : Str} {c : Char} (h : c ∈ stripPy l) : c ∈ l := by
  unfold stripPy at h
  rw [List.mem_reverse] at h
  have h2 := List.dropWhile_subset isSpacePy h
  rw [List.mem_reverse] at h2
  exact List.dropWhile_subset isSpacePy h2

theorem stripPy_getLast_space {l : Str} {c : Char}
    (h : (stripPy l).getLast? = some c) : isSpacePy c = false := by
  unfold stripPy at h
  rw [List.getLast?_reverse] at h
  exact head?_dropWhile_space h

theorem stripPy_head_space {l : Str} {c : Char}
    (h : (stripPy l).head? = some c) : isSpacePy c = false := by
  have hpre : stripPy l <+: l.dropWhile isSpacePy := by
    unfold stripPy
    obtain ⟨t, ht⟩ := List.dropWhile_suffix (l := (l.dropWhile isSpacePy).reverse) isSpacePy
    refine ⟨t.reverse, ?_⟩
    have h2 := congrArg List.reverse ht
    rw [List.reverse_append, List.reverse_reverse] at h2
    exact h2
  obtain ⟨t, ht⟩ := hpre
  cases hsl : stripPy l with
  | nil => rw [hsl] at h; simp at h
  | cons d ds =>
    rw [hsl] at h ht
    simp only [List.head?_cons, Option.some.injEq] at h
    subst h
    apply head?_dropWhile_space (l := l)
    rw [← ht]
    simp


theorem collapseAux_mem : ∀ (b : Bool) (l : Str) (c : Char),
    c ∈ collapseAux b l → c = ' ' ∨ c ∈ l := by
  intro b l
  induction l generalizing b with
  | nil => intro c h; simp [collapseAux] at h
  | cons a as ih =>
    intro c h
    unfold collapseAux at h
    by_cases ha : isSpacePy a = true
    · rw [if_pos ha] at h
      cases b with
      | true =>
        rw [if_pos rfl] at h
        rcases ih true c h with h1 | h1
        · exact Or.inl h1
        · exact Or.inr (List.mem_cons_of_mem a h1)
      | false =>
        rw [if_neg (by simp)] at h
        rcases List.mem_cons.mp h with h1 | h1
        · exact Or.inl h1
        · rcases ih true c h1 with h2 | h2
          · exact Or.inl h2
          · exact Or.inr (List.mem_cons_of_mem a h2)
    · rw [if_neg ha] at h
      rcases List.mem_cons.mp h with h1 | h1
      · exact Or.inr (List.mem_cons.mpr (Or.inl h1))
      · rcases ih false c h1 with h2 | h2
        · exact Or.inl h2
        · exact Or.inr (List.mem_cons_of_mem a h2)

theorem collapseAux_false_ne_nil : ∀ (l : Str), l ≠ [] →
    collapseAux false l ≠ [] := by
  intro l hl
  cases l with
  | nil => exact absurd rfl hl
  | cons a as =>
    unfold collapseAux
    by_cases ha : isSpacePy a = true
    · rw [if_pos ha, if_neg (by simp)]
      simp
    · rw [if_neg ha]
      simp

theorem collapseAux_true_head : ∀ (l : Str) (c : Char),
    (collapseAux true l).head? = some c → isSpacePy c = false := by
  intro l
  induction l with
  | nil => intro c h; simp [collapseAux] at h
  | cons a as ih =>
    intro c h
    unfold collapseAux at h
    by_cases ha : isSpacePy a = true
    · rw [if_pos ha, if_pos rfl] at h
      exact ih c h
    · rw [if_neg ha] at h
      simp only [List.head?_cons, Option.some.injEq] at h
      subst h
      simpa using ha

theorem collapseAux_head : ∀ (b : Bool) (l : Str) (c : Char),
    l.head? = some c → isSpacePy c = false →
    (collapseAux b l).head? = some c := by
  intro b l c h hc
  cases l with
  | nil => simp at h
  | cons a as =>
    simp only [List.head?_cons, Option.some.injEq] at h
    subst h
    unfold collapseAux
    rw [if_neg (by simp [hc])]
    rfl

theorem getLast?_cons_ne {a : Char} {l : Str} (h : l ≠ []) :
    (a :: l).getLast? = l.getLast? := by
  cases l with
  | nil => exact absurd rfl h
  | cons b bs => exact List.getLast?_cons_cons

theorem collapseAux_getLast : ∀ (l : Str) (b : Bool) (d : Char),
    l.getLast? = some d → isSpacePy d = false →
    (collapseAux b l).getLast? = some d := by
  intro l
  induction l with
  | nil => intro b d h _; simp at h
  | cons a as ih =>
    intro b d h hd
    by_cases hne : as = []
    · subst hne
      simp only [List.getLast?_singleton, Option.some.injEq] at h
      subst h
      unfold collapseAux
      rw [if_neg (by simp [hd])]
      rfl
    · rw [getLast?_cons_ne hne] at h
      have hrec : ∀ b2 : Bool, (collapseAux b2 as).getLast? = some d :=
        fun b2 => ih b2 d h hd
      have hrecne : ∀ b2 : Bool, collapseAux b2 as ≠ [] := by
        intro b2 hnil
        have h2 := hrec b2
        rw [hnil] at h2
        simp at h2
      unfold collapseAux
      by_cases ha : isSpacePy a = true
      · rw [if_pos ha]
        cases b with
        | true =>
          rw [if_pos rfl]
          exact hrec true
        | false =>
          rw [if_neg (by simp)]
          rw [getLast?_cons_ne (hrecne true)]
          exact hrec true
      · rw [if_neg ha]
        rw [getLast?_cons_ne (hrecne false)]
        exact hrec false


theorem collapseAux_space_char : ∀ (b : Bool) (l : Str) (c : Char),
    c ∈ collapseAux b l → isSpacePy c = true → c = ' ' := by
  intro b l
  induction l generalizing b with
  | nil => intro c h; simp [collapseAux] at h
  | cons a as ih =>
    intro c h hc
    unfold collapseAux at h
    by_cases ha : isSpacePy a = true
    · rw [if_pos ha] at h
      cases b with
      | true => exact ih true c h hc
      | false =>
        rw [if_neg (by simp)] at h
        rcases List.mem_cons.mp h with h1 | h1
        · exact h1
        · exact ih true c h1 hc
    · rw [if_neg ha] at h
      rcases List.mem_cons.mp h with h1 | h1
      · subst h1
        rw [hc] at ha
        exact absurd rfl ha
      · exact ih false c h1 hc

theorem collapseAux_chain : ∀ (b : Bool) (l : Str),
    List.Chain' (fun x y => isSpacePy x = false ∨ isSpacePy y = false)
      (collapseAux b l) := by
  intro b l
  induction l generalizing b with
  | nil => simp [collapseAux]
  | cons a as ih =>
    unfold collapseAux
    by_cases ha : isSpacePy a = true
    · rw [if_pos ha]
      cases b with
      | true => exact ih true
      | false =>
        rw [if_neg (by simp)]
        rw [List.chain'_cons']
        refine ⟨?_, ih true⟩
        intro y hy
        exact Or.inr (collapseAux_true_head as y hy)
    · rw [if_neg ha]
      rw [List.chain'_cons']
      refine ⟨?_, ih false⟩
      intro y _
      exact Or.inl (by simpa using ha)

theorem collapseAux_eq_self_of : ∀ (l : Str),
    (∀ c ∈ l, isSpacePy c = true → c = ' ') →
    List.Chain' (fun x y => isSpacePy x = false ∨ isSpacePy y = false) l →
    (collapseAux false l = l ∧
      ((∀ c, l.head? = some c → isSpacePy c = false) → collapseAux true l = l)) := by
  intro l
  induction l with
  | nil => exact fun _ _ => ⟨rfl, fun _ => rfl⟩
  | cons a as ih =>
    intro hsp hch
    rw [List.chain'_cons'] at hch
    have ihas := ih (fun c hc => hsp c (List.mem_cons_of_mem a hc)) hch.2
    by_cases ha : isSpacePy a = true
    · have ha2 : a = ' ' := hsp a (List.mem_cons_self a as) ha
      have htail : collapseAux true as = as := by
        apply ihas.2
        intro c hc
        rcases hch.1 c hc with h1 | h1
        · rw [ha] at h1
          exact absurd h1 (by simp)
        · exact h1
      constructor
      · unfold collapseAux
        rw [if_pos ha, if_neg (by simp), htail, ha2]
      · intro hhd
        have := hhd a rfl
        rw [ha] at this
        exact absurd this (by simp)
    · have ha2 : isSpacePy a = false := by simpa using ha
      constructor
      · unfold collapseAux
        rw [if_neg ha, ihas.1]
      · intro _
        unfold collapseAux
        rw [if_neg ha, ihas.1]


theorem splitlinesPy_rn {c d : Char} {cs' : Str} (hc : isLineBreakPy c = true)
    (hrn : c.toNat = 13 ∧ d.toNat = 10) :
    splitlinesPy (c :: d :: cs') =
      [] :: (if cs'.isEmpty then [] else splitlinesPy cs') := by
  rw [splitlinesPy.eq_def]
  simp only [if_pos hc, if_pos hrn]

theorem splitlinesPy_brk {c d : Char} {cs' : Str} (hc : isLineBreakPy c = true)
    (hrn : ¬(c.toNat = 13 ∧ d.toNat = 10)) :
    splitlinesPy (c :: d :: cs') = [] :: splitlinesPy (d :: cs') := by
  rw [splitlinesPy.eq_def]
  simp only [if_pos hc, if_neg hrn]

theorem splitlinesPy_nb_nil {c : Char} {cs : Str}
    (hc : ¬isLineBreakPy c = true) (hnil : splitlinesPy cs = []) :
    splitlinesPy (c :: cs) = [[c]] := by
  rw [splitlinesPy.eq_def]
  simp [hc, hnil]

theorem splitlinesPy_nb_cons {c : Char} {cs l : Str} {ls : List Str}
    (hc : ¬isLineBreakPy c = true) (hcons : splitlinesPy cs = l :: ls) :
    splitlinesPy (c :: cs) = (c :: l) :: ls := by
  rw [splitlinesPy.eq_def]
  simp [hc, hcons]

theorem splitlinesPy_chars : ∀ (s : Str), ∀ m ∈ splitlinesPy s, ∀ c ∈ m, c ∈ s := by
  intro s
  induction s using splitlinesPy.induct with
  | case1 =>
    intro m hm
    simp [splitlinesPy] at hm
  | case2 c hc =>
    intro m hm c2 hc2
    simp only [splitlinesPy, if_pos hc] at hm
    simp at hm
    subst hm
    simp at hc2
  | case3 c hc d cs' hrn ih =>
    intro m hm c2 hc2
    rw [splitlinesPy_rn hc hrn] at hm
    rcases List.mem_cons.mp hm with h1 | h1
    · subst h1
      simp at hc2
    · by_cases he : cs'.isEmpty
      · rw [if_pos he] at h1
        simp at h1
      · rw [if_neg he] at h1
        have := ih m h1 c2 hc2
        simp [this]
  | case4 c hc d cs' hrn ih =>
    intro m hm c2 hc2
    rw [splitlinesPy_brk hc hrn] at hm
    rcases List.mem_cons.mp hm with h1 | h1
    · subst h1
      simp at hc2
    · have := ih m h1 c2 hc2
      simp only [List.mem_cons] at this ⊢
      tauto
  | case5 c cs hc hnil ih =>
    intro m hm c2 hc2
    rw [splitlinesPy_nb_nil hc hnil] at hm
    simp at hm
    subst hm
    simp at hc2
    simp [hc2]
  | case6 c cs hc l ls hcons ih =>
    intro m hm c2 hc2
    rw [splitlinesPy_nb_cons hc hcons] at hm
    rcases List.mem_cons.mp hm with h1 | h1
    · subst h1
      rcases List.mem_cons.mp hc2 with h2 | h2
      · simp [h2]
      · have := ih l (by rw [hcons]; exact List.mem_cons_self l ls) c2 h2
        simp [this]
    · have := ih m (by rw [hcons]; exact List.mem_cons_of_mem l h1) c2 hc2
      simp [this]

theorem splitlinesPy_no_break : ∀ (s : Str), ∀ m ∈ splitlinesPy s,
    ∀ c ∈ m, isLineBreakPy c = false := by
  intro s
  induction s using splitlinesPy.induct with
  | case1 =>
    intro m hm
    simp [splitlinesPy] at hm
  | case2 c hc =>
    intro m hm c2 hc2
    simp only [splitlinesPy, if_pos hc] at hm
    simp at hm
    subst hm
    simp at hc2
  | case3 c hc d cs' hrn ih =>
    intro m hm c2 hc2
    rw [splitlinesPy_rn hc hrn] at hm
    rcases List.mem_cons.mp hm with h1 | h1
    · subst h1
      simp at hc2
    · by_cases he : cs'.isEmpty
      · rw [if_pos he] at h1
        simp at h1
      · rw [if_neg he] at h1
        exact ih m h1 c2 hc2
  | case4 c hc d cs' hrn ih =>
    intro m hm c2 hc2
    rw [splitlinesPy_brk hc hrn] at hm
    rcases List.mem_cons.mp hm with h1 | h1
    · subst h1
      simp at hc2
    · exact ih m h1 c2 hc2
  | case5 c cs hc hnil ih =>
    intro m hm c2 hc2
    rw [splitlinesPy_nb_nil hc hnil] at hm
    simp at hm
    subst hm
    simp at hc2
    subst hc2
    simpa using hc
  | case6 c cs hc l ls hcons ih =>
    intro m hm c2 hc2
    rw [splitlinesPy_nb_cons hc hcons] at hm
    rcases List.mem_cons.mp hm with h1 | h1
    · subst h1
      rcases List.mem_cons.mp hc2 with h2 | h2
      · subst h2
        simpa using hc
      · exact ih l (by rw [hcons]; exact List.mem_cons_self l ls) c2 h2
    · exact ih m (by rw [hcons]; exact List.mem_cons_of_mem l h1) c2 hc2


theorem splitlinesPy_single {m : Str} (hne : m ≠ [])
    (hnb : ∀ c ∈ m, isLineBreakPy c = false) : splitlinesPy m = [m] := by
  induction m with
  | nil => exact absurd rfl hne
  | cons c cs ih =>
    have hc : ¬isLineBreakPy c = true := by
      simp [hnb c (List.mem_cons_self c cs)]
    by_cases hcs : cs = []
    · subst hcs
      exact splitlinesPy_nb_nil hc rfl
    · have ih2 := ih hcs (fun d hd => hnb d (List.mem_cons_of_mem c hd))
      exact splitlinesPy_nb_cons hc ih2

theorem splitlinesPy_append {m r : Str} (hnb : ∀ c ∈ m, isLineBreakPy c = false)
    (hr : r ≠ []) : splitlinesPy (m ++ '\n' :: r) = m :: splitlinesPy r := by
  induction m with
  | nil =>
    simp only [List.nil_append]
    cases r with
    | nil => exact absurd rfl hr
    | cons d ds =>
      rw [splitlinesPy_brk (by decide) (fun hco => absurd hco.1 (by decide))]
  | cons c cs ih =>
    have hc : ¬isLineBreakPy c = true := by
      simp [hnb c (List.mem_cons_self c cs)]
    have ih2 := ih (fun d hd => hnb d (List.mem_cons_of_mem c hd))
    rw [List.cons_append]
    rw [splitlinesPy_nb_cons hc ih2]

theorem joinLines_ne_nil {M : List Str} (hM : M ≠ []) (h1 : ∀ m ∈ M, m ≠ []) :
    joinLines M ≠ [] := by
  cases M with
  | nil => exact absurd rfl hM
  | cons m ls =>
    cases ls with
    | nil => simpa [joinLines] using h1 m (by simp)
    | cons l2 ls2 =>
      have hj : joinLines (m :: l2 :: ls2) = m ++ '\n' :: joinLines (l2 :: ls2) := rfl
      rw [hj]
      simp

theorem splitlinesPy_joinLines {M : List Str}
    (h1 : ∀ m ∈ M, m ≠ [])
    (h2 : ∀ m ∈ M, ∀ c ∈ m, isLineBreakPy c = false) :
    splitlinesPy (joinLines M) = M := by
  induction M with
  | nil => rfl
  | cons m ls ih =>
    cases ls with
    | nil =>
      have hj : joinLines [m] = m := rfl
      rw [hj]
      exact splitlinesPy_single (h1 m (by simp)) (h2 m (by simp))
    | cons l2 ls2 =>
      have hj : joinLines (m :: l2 :: ls2) = m ++ '\n' :: joinLines (l2 :: ls2) := rfl
      rw [hj]
      rw [splitlinesPy_append (h2 m (by simp))
        (joinLines_ne_nil (by simp) (fun d hd => h1 d (List.mem_cons_of_mem m hd)))]
      rw [ih (fun d hd => h1 d (List.mem_cons_of_mem m hd))
        (fun d hd => h2 d (List.mem_cons_of_mem m hd))]

theorem pyLower_joinLines (M : List Str) :
    pyLower (joinLines M) = joinLines (M.map pyLower) := by
  induction M with
  | nil => rfl
  | cons m ls ih =>
    cases ls with
    | nil => rfl
    | cons l2 ls2 =>
      have hj : joinLines (m :: l2 :: ls2) = m ++ '\n' :: joinLines (l2 :: ls2) := rfl
      rw [hj]
      simp only [pyLower, List.map_append, List.map_cons] at ih ⊢
      rw [show lowerChar '\n' = '\n' from by decide, ih]
      rfl

theorem mem_joinLines {M : List Str} {c : Char} (h : c ∈ joinLines M) :
    c = '\n' ∨ ∃ m ∈ M, c ∈ m := by
  induction M with
  | nil => simp [joinLines] at h
  | cons m ls ih =>
    cases ls with
    | nil =>
      refine Or.inr ⟨m, by simp, ?_⟩
      simpa [joinLines] using h
    | cons l2 ls2 =>
      have hj : joinLines (m :: l2 :: ls2) = m ++ '\n' :: joinLines (l2 :: ls2) := rfl
      rw [hj] at h
      rcases List.mem_append.mp h with h1 | h1
      · exact Or.inr ⟨m, by simp, h1⟩
      · rcases List.mem_cons.mp h1 with h2 | h2
        · exact Or.inl h2
        · rcases ih h2 with h3 | ⟨m2, hm2, hc2⟩
          · exact Or.inl h3
          · exact Or.inr ⟨m2, List.mem_cons_of_mem m hm2, hc2⟩


theorem cleanLines_shape {s : Str} :
    ∀ m ∈ cleanLines s, ∃ l ∈ splitlinesPy (translate (nfkc s)),
      stripPy l ≠ [] ∧ m = collapseWs (stripPy l) := by
  intro m hm
  unfold cleanLines at hm
  rcases List.mem_map.mp hm with ⟨l2, hl2, hm2⟩
  rcases List.mem_filter.mp hl2 with ⟨hl3, hne⟩
  rcases List.mem_map.mp hl3 with ⟨l, hl, hstrip⟩
  refine ⟨l, hl, ?_, ?_⟩
  · rw [hstrip]
    simpa using hne
  · rw [← hm2, ← hstrip]

theorem cleanLines_ne_nil {s : Str} : ∀ m ∈ cleanLines s, m ≠ [] := by
  intro m hm
  rcases cleanLines_shape m hm with ⟨l, _, hne, hcol⟩
  rw [hcol]
  exact collapseAux_false_ne_nil _ hne

theorem cleanLines_mem_src {s : Str} : ∀ m ∈ cleanLines s, ∀ c ∈ m,
    c = ' ' ∨ c ∈ translate (nfkc s) := by
  intro m hm c hc
  rcases cleanLines_shape m hm with ⟨l, hl, _, hcol⟩
  rw [hcol] at hc
  rcases collapseAux_mem false _ c hc with h1 | h1
  · exact Or.inl h1
  · exact Or.inr (splitlinesPy_chars _ l hl c (mem_of_mem_stripPy h1))

theorem cleanLines_no_break {s : Str} : ∀ m ∈ cleanLines s, ∀ c ∈ m,
    isLineBreakPy c = false := by
  intro m hm c hc
  rcases cleanLines_shape m hm with ⟨l, hl, _, hcol⟩
  rw [hcol] at hc
  rcases collapseAux_mem false _ c hc with h1 | h1
  · subst h1
    decide
  · exact splitlinesPy_no_break _ l hl c (mem_of_mem_stripPy h1)

theorem cleanLines_space_char {s : Str} : ∀ m ∈ cleanLines s, ∀ c ∈ m,
    isSpacePy c = true → c = ' ' := by
  intro m hm c hc hsp
  rcases cleanLines_shape m hm with ⟨l, _, _, hcol⟩
  rw [hcol] at hc
  exact collapseAux_space_char false _ c hc hsp

theorem cleanLines_chain {s : Str} : ∀ m ∈ cleanLines s,
    List.Chain' (fun x y => isSpacePy x = false ∨ isSpacePy y = false) m := by
  intro m hm
  rcases cleanLines_shape m hm with ⟨l, _, _, hcol⟩
  rw [hcol]
  exact collapseAux_chain false _

theorem cleanLines_head {s : Str} : ∀ m ∈ cleanLines s, ∀ c,
    m.head? = some c → isSpacePy c = false := by
  intro m hm c hc
  rcases cleanLines_shape m hm with ⟨l, _, hne, hcol⟩
  cases hhd : (stripPy l).head? with
  | none =>
    rw [List.head?_eq_none_iff] at hhd
    exact absurd hhd hne
  | some c0 =>
    have hc0 : isSpacePy c0 = false := stripPy_head_space hhd
    have h2 : (collapseWs (stripPy l)).head? = some c0 :=
      collapseAux_head false (stripPy l) c0 hhd hc0
    rw [hcol, h2] at hc
    cases hc
    exact hc0

theorem cleanLines_last {s : Str} : ∀ m ∈ cleanLines s, ∀ c,
    m.getLast? = some c → isSpacePy c = false := by
  intro m hm c hc
  rcases cleanLines_shape m hm with ⟨l, _, hne, hcol⟩
  cases hhd : (stripPy l).getLast? with
  | none =>
    rw [List.getLast?_eq_none_iff] at hhd
    exact absurd hhd hne
  | some c0 =>
    have hc0 : isSpacePy c0 = false := stripPy_getLast_space hhd
    have h2 : (collapseWs (stripPy l)).getLast? = some c0 :=
      collapseAux_getLast (stripPy l) false c0 hhd hc0
    rw [hcol, h2] at hc
    cases hc
    exact hc0

theorem cleanLines_fixed {s : Str} : ∀ m ∈ cleanLines s, ∀ c ∈ m,
    nfkcChar c = c ∧ translateChar c = c := by
  intro m hm c hc
  rcases cleanLines_mem_src m hm c hc with h1 | h1
  · subst h1
    exact ⟨by decide, by decide⟩
  · rcases List.mem_map.mp h1 with ⟨c1, hc1mem, hc1⟩
    rcases List.mem_map.mp hc1mem with ⟨c0, _, hc0⟩
    subst hc1
    subst hc0
    exact ⟨nfkc_fix_translateChar (nfkcChar_nfkcChar c0),
      translateChar_translateChar (nfkcChar c0)⟩


theorem cleanLines_of_clean {s : Str} :
    cleanLines (pyLower (joinLines (cleanLines s))) =
      (cleanLines s).map pyLower := by
  have hyM : pyLower (joinLines (cleanLines s)) =
      joinLines ((cleanLines s).map pyLower) := pyLower_joinLines (cleanLines s)
  have hM'mem : ∀ m' ∈ (cleanLines s).map pyLower,
      ∃ m ∈ cleanLines s, m' = pyLower m := by
    intro m' hm'
    rcases List.mem_map.mp hm' with ⟨m, hm, he⟩
    exact ⟨m, hm, he.symm⟩
  have hM'ne : ∀ m' ∈ (cleanLines s).map pyLower, m' ≠ [] := by
    intro m' hm'
    rcases hM'mem m' hm' with ⟨m, hm, he⟩
    rw [he]
    intro hnil
    exact cleanLines_ne_nil m hm (List.map_eq_nil_iff.mp hnil)
  have hM'nb : ∀ m' ∈ (cleanLines s).map pyLower, ∀ c ∈ m',
      isLineBreakPy c = false := by
    intro m' hm' c hc
    rcases hM'mem m' hm' with ⟨m, hm, he⟩
    rw [he] at hc
    rcases List.mem_map.mp hc with ⟨c0, hc0, hce⟩
    rw [← hce, isLineBreakPy_lowerChar]
    exact cleanLines_no_break m hm c0 hc0
  have hyfix : ∀ c ∈ pyLower (joinLines (cleanLines s)),
      nfkcChar c = c ∧ translateChar c = c := by
    intro c hc
    rw [hyM] at hc
    rcases mem_joinLines hc with h1 | ⟨m', hm', hcm⟩
    · subst h1
      exact ⟨by decide, by decide⟩
    · rcases hM'mem m' hm' with ⟨m, hm, he⟩
      rw [he] at hcm
      rcases List.mem_map.mp hcm with ⟨c0, hc0, hce⟩
      have hfix := cleanLines_fixed m hm c0 hc0
      subst hce
      exact ⟨nfkc_fix_lowerChar hfix.1, trans_fix_lowerChar hfix.2⟩
  have hnfkc : nfkc (pyLower (joinLines (cleanLines s))) =
      pyLower (joinLines (cleanLines s)) :=
    map_eq_self (fun c hc => (hyfix c hc).1)
  have htrans : translate (pyLower (joinLines (cleanLines s))) =
      pyLower (joinLines (cleanLines s)) :=
    map_eq_self (fun c hc => (hyfix c hc).2)
  have hsplit : splitlinesPy (translate (nfkc (pyLower (joinLines (cleanLines s))))) =
      (cleanLines s).map pyLower := by
    rw [hnfkc, htrans, hyM]
    exact splitlinesPy_joinLines hM'ne hM'nb
  have hstrip : ((cleanLines s).map pyLower).map stripPy =
      (cleanLines s).map pyLower := by
    apply map_eq_self
    intro m' hm'
    rcases hM'mem m' hm' with ⟨m, hm, he⟩
    apply stripPy_eq_self
    · intro c hc
      rw [he] at hc
      unfold pyLower at hc
      rw [List.head?_map] at hc
      cases hhd : m.head? with
      | none =>
        rw [hhd] at hc
        simp at hc
      | some c0 =>
        rw [hhd] at hc
        simp only [Option.map_some'] at hc
        cases hc
        rw [isSpacePy_lowerChar]
        exact cleanLines_head m hm c0 hhd
    · intro c hc
      rw [he] at hc
      unfold pyLower at hc
      rw [List.getLast?_map] at hc
      cases hhd : m.getLast? with
      | none =>
        rw [hhd] at hc
        simp at hc
      | some c0 =>
        rw [hhd] at hc
        simp only [Option.map_some'] at hc
        cases hc
        rw [isSpacePy_lowerChar]
        exact cleanLines_last m hm c0 hhd
  have hfilter : ((cleanLines s).map pyLower).filter (fun l => !l.isEmpty) =
      (cleanLines s).map pyLower := by
    rw [List.filter_eq_self]
    intro m' hm'
    simpa using hM'ne m' hm'
  have hcollapse : ((cleanLines s).map pyLower).map collapseWs =
      (cleanLines s).map pyLower := by
    apply map_eq_self
    intro m' hm'
    rcases hM'mem m' hm' with ⟨m, hm, he⟩
    have hsp : ∀ c ∈ m', isSpacePy c = true → c = ' ' := by
      intro c hc hspc
      rw [he] at hc
      rcases List.mem_map.mp hc with ⟨c0, hc0, hce⟩
      subst hce
      rw [isSpacePy_lowerChar] at hspc
      have hc0sp := cleanLines_space_char m hm c0 hc0 hspc
      rw [hc0sp]
      decide
    have hch : List.Chain'
        (fun x y => isSpacePy x = false ∨ isSpacePy y = false) m' := by
      rw [he]
      unfold pyLower
      rw [List.chain'_map]
      apply List.Chain'.imp ?_ (cleanLines_chain m hm)
      intro a b hab
      rw [isSpacePy_lowerChar, isSpacePy_lowerChar]
      exact hab
    exact (collapseAux_eq_self_of m' hsp hch).1
  have hdef : cleanLines (pyLower (joinLines (cleanLines s))) =
      (((splitlinesPy (translate (nfkc (pyLower (joinLines
        (cleanLines s)))))).map stripPy).filter
          (fun l => !l.isEmpty)).map collapseWs := rfl
  rw [hdef, hsplit, hstrip, hfilter, hcollapse]

/-- The normalizer of `src/main.py` is idempotent. -/
theorem clean_text_idem (s : Str) : clean_text (clean_text s) = clean_text s := by
  by_cases hs : s.isEmpty
  · unfold clean_text
    rw [if_pos hs]
    rfl
  · have hcs : clean_text s = pyLower (joinLines (cleanLines s)) := by
      unfold clean_text
      rw [if_neg hs]
    rw [hcs]
    by_cases hy : (pyLower (joinLines (cleanLines s))).isEmpty = true
    · rw [List.isEmpty_iff.mp hy]
      rfl
    · unfold clean_text
      rw [if_neg hy, cleanLines_of_clean, pyLower_joinLines,
        List.map_map]
      rw [pyLower_joinLines (cleanLines s)]
      congr 1
      apply List.map_congr_left
      intro m _
      exact pyLower_pyLower m


theorem clean_text_of_space {s : Str} (h : ∀ c ∈ s, isSpacePy c = true) :
    clean_text s = [] := by
  by_cases hs : s.isEmpty
  · unfold clean_text
    rw [if_pos hs]
  · unfold clean_text
    rw [if_neg hs]
    have ht : ∀ c ∈ translate (nfkc s), isSpacePy c = true := by
      intro c hc
      rcases List.mem_map.mp hc with ⟨c1, hc1, he⟩
      rcases List.mem_map.mp hc1 with ⟨c0, hc0, he0⟩
      subst he
      subst he0
      rw [isSpacePy_translateChar, isSpacePy_nfkcChar]
      exact h c0 hc0
    have hfilter : ((splitlinesPy (translate (nfkc s))).map stripPy).filter
        (fun l => !l.isEmpty) = [] := by
      rw [List.filter_eq_nil_iff]
      intro l hl
      rcases List.mem_map.mp hl with ⟨l0, hl0, he⟩
      have hstrip : stripPy l0 = [] := by
        apply stripPy_eq_nil_of_space
        intro c hc
        exact ht c (splitlinesPy_chars _ l0 hl0 c hc)
      rw [← he, hstrip]
      simp
    have hcl : cleanLines s = [] := by
      unfold cleanLines
      rw [hfilter]
      rfl
    rw [hcl]
    rfl

theorem clean_chars_fixed {s : Str} : ∀ c ∈ pyLower (joinLines (cleanLines s)),
    nfkcChar c = c ∧ translateChar c = c := by
  intro c hc
  rw [pyLower_joinLines] at hc
  rcases mem_joinLines hc with h1 | ⟨m', hm', hcm⟩
  · subst h1
    exact ⟨by decide, by decide⟩
  · rcases List.mem_map.mp hm' with ⟨m, hm, he⟩
    rw [← he] at hcm
    rcases List.mem_map.mp hcm with ⟨c0, hc0, hce⟩
    have hfix := cleanLines_fixed m hm c0 hc0
    subst hce
    exact ⟨nfkc_fix_lowerChar hfix.1, trans_fix_lowerChar hfix.2⟩

theorem keepB_lowerChar (c : Char) : keepB (lowerChar c) = keepB c := by
  unfold keepB
  rw [isWordPy_lowerChar, isSpacePy_lowerChar]

theorem keepB_eq_false_of_space {c : Char} (h : isSpacePy c = true) :
    keepB c = false := by
  unfold keepB
  rw [h, isWordPy_eq_false_of_space h]
  rfl

theorem filter_keepB_pyLower (l : Str) :
    (pyLower l).filter keepB = pyLower (l.filter keepB) := by
  unfold pyLower
  rw [List.filter_map]
  congr 1
  apply List.filter_congr
  intro c _
  exact keepB_lowerChar c

theorem filter_keepB_dropWhile (l : Str) :
    (l.dropWhile isSpacePy).filter keepB = l.filter keepB := by
  induction l with
  | nil => rfl
  | cons c cs ih =>
    rw [List.dropWhile_cons]
    by_cases hc : isSpacePy c = true
    · rw [if_pos hc, ih, List.filter_cons, if_neg]
      simp [keepB_eq_false_of_space hc]
    · rw [if_neg hc]

theorem filter_keepB_stripPy (l : Str) :
    (stripPy l).filter keepB = l.filter keepB := by
  unfold stripPy
  rw [List.filter_reverse, filter_keepB_dropWhile, List.filter_reverse,
    List.reverse_reverse, filter_keepB_dropWhile]

theorem filter_keepB_collapseAux (b : Bool) (l : Str) :
    (collapseAux b l).filter keepB = l.filter keepB := by
  induction l generalizing b with
  | nil => rfl
  | cons c cs ih =>
    unfold collapseAux
    by_cases hc : isSpacePy c = true
    · have hkc : keepB c = false := keepB_eq_false_of_space hc
      rw [if_pos hc]
      cases b with
      | true =>
        rw [if_pos rfl, ih true, List.filter_cons, if_neg (by simp [hkc])]
      | false =>
        rw [if_neg (by simp), List.filter_cons, if_neg (by decide),
          ih true, List.filter_cons, if_neg (by simp [hkc])]
    · rw [if_neg hc, List.filter_cons, List.filter_cons, ih false]

theorem filter_keepB_joinLines (M : List Str) :
    (joinLines M).filter keepB = (M.map (fun m => m.filter keepB)).flatten := by
  induction M with
  | nil => rfl
  | cons m ls ih =>
    cases ls with
    | nil => simp [joinLines]
    | cons l2 ls2 =>
      have hj : joinLines (m :: l2 :: ls2) = m ++ '\n' :: joinLines (l2 :: ls2) := rfl
      rw [hj, List.filter_append, List.filter_cons]
      rw [if_neg (by simp [keepB_eq_false_of_space (by decide : isSpacePy '\n' = true)])]
      rw [ih]
      simp [List.flatten_cons]

theorem filter_keepB_splitlines : ∀ (s : Str),
    ((splitlinesPy s).map (fun m => m.filter keepB)).flatten = s.filter keepB := by
  intro s
  induction s using splitlinesPy.induct with
  | case1 => rfl
  | case2 c hc =>
    simp only [splitlinesPy, if_pos hc]
    simp [List.filter_cons,
      keepB_eq_false_of_space (isSpacePy_of_break hc)]
  | case3 c hc d cs' hrn ih =>
    rw [splitlinesPy_rn hc hrn]
    have hkc : keepB c = false := keepB_eq_false_of_space (isSpacePy_of_break hc)
    have hkd : keepB d = false := by
      apply keepB_eq_false_of_space
      rw [isSpacePy_iff]
      simp only [IsSpaceN]
      omega
    by_cases he : cs'.isEmpty
    · rw [if_pos he]
      rw [List.isEmpty_iff.mp he]
      simp [List.filter_cons, hkc, hkd]
    · rw [if_neg he]
      simp only [List.map_cons, List.flatten_cons, List.filter_nil,
        List.nil_append]
      rw [ih]
      simp [List.filter_cons, hkc, hkd]
  | case4 c hc d cs' hrn ih =>
    rw [splitlinesPy_brk hc hrn]
    have hkc : keepB c = false := keepB_eq_false_of_space (isSpacePy_of_break hc)
    simp only [List.map_cons, List.flatten_cons, List.filter_nil,
      List.nil_append]
    rw [ih]
    simp [List.filter_cons, hkc]
  | case5 c cs hc hnil ih =>
    rw [splitlinesPy_nb_nil hc hnil]
    rw [hnil] at ih
    simp only [List.map_nil, List.flatten_nil] at ih
    simp [List.filter_cons, ← ih]
  | case6 c cs hc l ls hcons ih =>
    rw [splitlinesPy_nb_cons hc hcons]
    rw [hcons] at ih
    simp only [List.map_cons, List.flatten_cons] at ih ⊢
    rw [List.filter_cons, List.filter_cons]
    cases hkc : keepB c
    · simpa using ih
    · simpa using ih

theorem flatten_filter_nonempty (M : List Str) :
    (((M.filter (fun l => !l.isEmpty)).map (fun m => m.filter keepB)).flatten) =
      ((M.map (fun m => m.filter keepB)).flatten) := by
  induction M with
  | nil => rfl
  | cons m ls ih =>
    rw [List.filter_cons]
    by_cases hm : m.isEmpty
    · rw [if_neg (by simp [hm]), List.map_cons, List.flatten_cons, ih,
        List.isEmpty_iff.mp hm]
      rfl
    · rw [if_pos (by simp [hm]), List.map_cons, List.map_cons,
        List.flatten_cons, List.flatten_cons, ih]

/-- C10 core: the fold key is invariant under prior cleaning. -/
theorem normalize_clean_text (s : Str) :
    normalize_for_match (clean_text s) = normalize_for_match s := by
  by_cases hs : s.isEmpty
  · rw [List.isEmpty_iff.mp hs]
    rfl
  · have h1 : clean_text s = pyLower (joinLines (cleanLines s)) := by
      unfold clean_text
      rw [if_neg hs]
    rw [h1]
    unfold normalize_for_match
    have hnf : nfkc (pyLower (joinLines (cleanLines s))) =
        pyLower (joinLines (cleanLines s)) :=
      map_eq_self (fun c hc => (clean_chars_fixed c hc).1)
    have htr : translate (pyLower (joinLines (cleanLines s))) =
        pyLower (joinLines (cleanLines s)) :=
      map_eq_self (fun c hc => (clean_chars_fixed c hc).2)
    rw [hnf, htr, pyLower_pyLower]
    rw [filter_keepB_pyLower (joinLines (cleanLines s))]
    rw [filter_keepB_joinLines]
    unfold cleanLines
    rw [List.map_map]
    have hcol : ((((splitlinesPy (translate (nfkc s))).map stripPy).filter
        (fun l => !l.isEmpty)).map ((fun m => m.filter keepB) ∘ collapseWs)) =
        ((((splitlinesPy (translate (nfkc s))).map stripPy).filter
          (fun l => !l.isEmpty)).map (fun m => m.filter keepB)) := by
      apply List.map_congr_left
      intro m _
      exact filter_keepB_collapseAux false m
    rw [hcol, flatten_filter_nonempty, List.map_map]
    have hstr : (((splitlinesPy (translate (nfkc s))).map
        ((fun m => m.filter keepB) ∘ stripPy))) =
        ((splitlinesPy (translate (nfkc s))).map (fun m => m.filter keepB)) := by
      apply List.map_congr_left
      intro m _
      exact filter_keepB_stripPy m
    rw [hstr, filter_keepB_splitlines]
    rw [filter_keepB_pyLower]


theorem normalize_for_match_wsIns {s t : Str} (h : WsIns s t) :
    normalize_for_match t = normalize_for_match s := by
  induction h with
  | nil => rfl
  | keep c hst ih =>
    unfold normalize_for_match nfkc translate pyLower at ih ⊢
    simp only [List.map_cons, List.filter_cons] at ih ⊢
    rw [ih]
  | ins c hsp hst ih =>
    unfold normalize_for_match nfkc translate pyLower at ih ⊢
    simp only [List.map_cons, List.filter_cons] at ih ⊢
    have hspc : isSpacePy (lowerChar (translateChar (nfkcChar c))) = true := by
      rw [isSpacePy_lowerChar, isSpacePy_translateChar, isSpacePy_nfkcChar]
      exact hsp
    rw [if_neg (by simp [keepB_eq_false_of_space hspc])]
    exact ih

theorem lexLe_total : ∀ a b : Str, lexLe a b = true ∨ lexLe b a = true := by
  intro a
  induction a with
  | nil => intro b; exact Or.inl rfl
  | cons x xs ih =>
    intro b
    cases b with
    | nil => exact Or.inr rfl
    | cons y ys =>
      unfold lexLe
      rcases Nat.lt_trichotomy x.toNat y.toNat with h | h | h
      · left
        simp [h]
      · rcases ih ys with h2 | h2
        · left
          simp [h, h2]
        · right
          simp [h.symm, h2]
      · right
        simp [h]

theorem lexLe_trans : ∀ a b c : Str, lexLe a b = true → lexLe b c = true →
    lexLe a c = true := by
  intro a
  induction a with
  | nil => intro b c _ _; rfl
  | cons x xs ih =>
    intro b c hab hbc
    cases b with
    | nil => exact absurd hab (by simp [lexLe])
    | cons y ys =>
      cases c with
      | nil => exact absurd hbc (by simp [lexLe])
      | cons z zs =>
        unfold lexLe at hab hbc ⊢
        simp only [Bool.or_eq_true, Bool.and_eq_true, decide_eq_true_eq] at hab hbc ⊢
        rcases hab with h1 | ⟨h1, h1b⟩
        · rcases hbc with h2 | ⟨h2, h2b⟩
          · exact Or.inl (Nat.lt_trans h1 h2)
          · exact Or.inl (h2 ▸ h1)
        · rcases hbc with h2 | ⟨h2, h2b⟩
          · exact Or.inl (h1 ▸ h2)
          · exact Or.inr ⟨h1.trans h2, ih ys zs h1b h2b⟩

instance : IsTotal Str LexLe := ⟨lexLe_total⟩

instance : IsTrans Str LexLe := ⟨lexLe_trans⟩

theorem rankRel_total : ∀ a b : Str × Nat, rankRel a b ∨ rankRel b a := by
  intro a b
  unfold rankRel
  rcases Nat.lt_trichotomy a.2 b.2 with h | h | h
  · right
    exact Or.inl h
  · rcases lexLe_total a.1 b.1 with h2 | h2
    · exact Or.inl (Or.inr ⟨h, h2⟩)
    · exact Or.inr (Or.inr ⟨h.symm, h2⟩)
  · left
    exact Or.inl h

theorem rankRel_trans : ∀ a b c : Str × Nat, rankRel a b → rankRel b c →
    rankRel a c := by
  intro a b c hab hbc
  unfold rankRel at hab hbc ⊢
  rcases hab with h1 | ⟨h1, h1b⟩
  · rcases hbc with h2 | ⟨h2, h2b⟩
    · exact Or.inl (Nat.lt_trans h2 h1)
    · exact Or.inl (h2 ▸ h1)
  · rcases hbc with h2 | ⟨h2, h2b⟩
    · exact Or.inl (h1 ▸ h2)
    · exact Or.inr ⟨h1.trans h2, lexLe_trans _ _ _ h1b h2b⟩

instance : IsTotal (Str × Nat) rankRel := ⟨rankRel_total⟩

instance : IsTrans (Str × Nat) rankRel := ⟨rankRel_trans⟩


theorem pyIn_iff {n h : Str} : pyIn n h = true ↔ n <:+: h := by
  induction h with
  | nil => simp [pyIn, List.infix_nil, List.isEmpty_iff]
  | cons c t ih =>
    simp [pyIn, List.infix_cons_iff, ih, Bool.or_eq_true]

/-- C1: for every cleaned text, keyword list and keyword in the list, the
matcher reports the keyword as matched iff (a) the lowercased keyword
occurs as a literal substring of the cleaned text, or (b) the fold key of
the keyword is non-empty and occurs as a literal substring of the fold key
of the cleaned text. -/
theorem c1_match_rule (text kw : Str) (kws : List Str) (hmem : kw ∈ kws) :
    kw ∈ matchDoc kws text ↔
      (pyLower kw <:+: text ∨
        (normalize_for_match kw ≠ [] ∧
          normalize_for_match kw <:+: normalize_for_match text)) := by
  unfold matchDoc
  rw [List.mem_filter]
  unfold matchCond
  simp only [hmem, true_and, Bool.or_eq_true, Bool.and_eq_true,
    Bool.not_eq_true', pyIn_iff, List.isEmpty_eq_false, ne_eq]

/-- C1 witness: instantiation at keyword "ai" and cleaned text "x ai". -/
theorem c1_match_rule_witness :
    str "ai" ∈ matchDoc [str "ai"] (str "x ai") ↔
      (pyLower (str "ai") <:+: str "x ai" ∨
        (normalize_for_match (str "ai") ≠ [] ∧
          normalize_for_match (str "ai") <:+:
            normalize_for_match (str "x ai"))) :=
  c1_match_rule (str "x ai") (str "ai") [str "ai"] (by decide)

/-- C2 counterexample: with keyword list ["A","B","A"] and cleaned text
"a b", the per-document matched list reports "A" twice, not once. -/
theorem c2_counterexample :
    (matchDoc [str "A", str "B", str "A"] (str "a b")).count (str "A") = 2 := by
  decide

/-- C2 amended: duplicates in the keyword list are preserved, not
collapsed: a keyword's multiplicity in the per-document matched list is
its multiplicity in the keyword list when its matching condition holds,
else 0 (deduplication happens only in the aggregation's `set(matches)`). -/
theorem c2_amended (kws : List Str) (text kw : Str) :
    (matchDoc kws text).count kw =
      if matchCond text kw = true then kws.count kw else 0 := by
  unfold matchDoc
  induction kws with
  | nil => simp
  | cons k ks ih =>
    rw [List.filter_cons]
    by_cases hk : matchCond text k = true
    · rw [if_pos hk, List.count_cons, List.count_cons, ih]
      by_cases he : matchCond text kw = true
      · simp [he]
      · have hne : (k == kw) = false := by
          rw [beq_eq_false_iff_ne]
          intro hkk
          subst hkk
          exact he hk
        simp [he, hne]
    · rw [if_neg hk, ih, List.count_cons]
      by_cases he : matchCond text kw = true
      · have hne : (k == kw) = false := by
          rw [beq_eq_false_iff_ne]
          intro hkk
          subst hkk
          exact hk he
        simp [he, hne]
      · simp [he]


/-- C3: the keyword-listing query drops zero-hit keywords whenever any
keyword has a hit, because `ordered` is computed before the zero-fill
loop: with keywords ["A","B"] and one subject matching only "A", the
printed lines are just ["A: 1"], omitting "B: 0". -/
theorem c3_failing_input :
    list_keywords [str "A", str "B"] [(str "t", [str "A"])] = [str "A: 1"] := by
  decide

/-- C4 counterexample: for subjects 甲,乙 with 2 distinct matches each and
丙 with 0, the top-3 listing is not ["甲","乙","丙"]: since 乙 (U+4E59)
sorts before 甲 (U+7532) by code point, the tie at count 2 puts 乙 first. -/
theorem c4_counterexample :
    (topTeachers [(str "甲", [str "k", str "j"]),
      (str "乙", [str "k", str "j"]), (str "丙", [])]).map Prod.fst ≠
      [str "甲", str "乙", str "丙"] := by
  decide

/-- C4 amended: the top-3 listing is ["乙","甲","丙"] (count descending,
ties by ascending code-point order of the subject key, where 乙 < 甲), and
the zero-match list is ["丙"]. -/
theorem c4_amended :
    topTeachers [(str "甲", [str "k", str "j"]),
        (str "乙", [str "k", str "j"]), (str "丙", [])] =
      [(str "乙", 2), (str "甲", 2), (str "丙", 0)] ∧
    noMatchTeachers [(str "甲", [str "k", str "j"]),
        (str "乙", [str "k", str "j"]), (str "丙", [])] = [str "丙"] := by
  constructor
  · decide
  · decide


/-- C5 counterexample: for the empty corpus the zero-match facet is not
reported as an empty list: it renders the placeholder line "无" — the very
same line the top-3 facet renders for "no subjects" — so the two facets'
rendered bodies are identical, not distinguishable. -/
theorem c5_counterexample :
    zeroMatchLines [] = [str "无"] ∧ zeroMatchLines [] = topLines [] := by
  decide

/-- C5 amended: for an empty corpus with any keyword list, every keyword
reports count 0 (rendered "0"), the top-3 facet renders the placeholder
"无", and the zero-match list is empty internally but is rendered with the
same placeholder "无" as the top-3 facet; the two facets are
distinguishable in `build_summary` only by their section headers. -/
theorem c5_amended (kws : List Str) :
    keywordCountLines kws [] = kws.map (fun kw => kw ++ str ": " ++ natStr 0) ∧
    natStr 0 = str "0" ∧
    topLines [] = [str "无"] ∧
    noMatchTeachers [] = [] ∧
    zeroMatchLines [] = [str "无"] :=
  ⟨rfl, rfl, by decide, by decide, by decide⟩

/-- C7: fold matching is whitespace-insensitive: if keyword `k`
fold-matches within text `t` (its fold key is non-empty and a substring of
the fold key of `t`), then `k` also fold-matches within any `t'` obtained
from `t` by inserting extra whitespace characters. -/
theorem c7_fold_ws_insensitive (k t t' : Str) (hins : WsIns t t')
    (hne : normalize_for_match k ≠ [])
    (hsub : normalize_for_match k <:+: normalize_for_match t) :
    normalize_for_match k ≠ [] ∧
      normalize_for_match k <:+: normalize_for_match t' := by
  rw [normalize_for_match_wsIns hins]
  exact ⟨hne, hsub⟩

/-- C7 witness: keyword "ab" fold-matches "ab", and still fold-matches
after inserting a space: "a b". -/
theorem c7_fold_ws_insensitive_witness :
    normalize_for_match (str "ab") ≠ [] ∧
      normalize_for_match (str "ab") <:+: normalize_for_match (str "a b") :=
  c7_fold_ws_insensitive (str "ab") (str "ab") (str "a b")
    (WsIns.keep 'a' (WsIns.ins ' ' (by decide) (WsIns.keep 'b' WsIns.nil)))
    (by decide) (by decide)


/-- C8: the subject-search query returns the ascending-sorted list of
subjects whose matched list contains the query keyword; when no subject's
matched list contains it (in particular for keywords absent from the
configured list) the printed output is the "no matching subject" line
`无匹配教师` rather than a failure. -/
theorem c8_search_keyword (kw : Str) (ms : List (Str × List Str)) :
    List.Sorted LexLe (searchTeachers kw ms) ∧
    (∀ t, t ∈ searchTeachers kw ms ↔ ∃ p ∈ ms, p.1 = t ∧ kw ∈ p.2) ∧
    search_keyword kw ms =
      (if searchTeachers kw ms = [] then [str "无匹配教师"]
        else searchTeachers kw ms) := by
  refine ⟨List.sorted_insertionSort LexLe _, ?_, ?_⟩
  · intro t
    unfold searchTeachers
    rw [List.mem_insertionSort]
    simp only [List.mem_map, List.mem_filter]
    constructor
    · rintro ⟨p, ⟨hp, hcont⟩, he⟩
      refine ⟨p, hp, he, ?_⟩
      exact List.elem_iff.mp hcont
    · rintro ⟨p, hp, he, hmem⟩
      exact ⟨p, ⟨hp, List.elem_iff.mpr hmem⟩, he⟩
  · unfold search_keyword
    by_cases h : searchTeachers kw ms = []
    · rw [if_pos h, if_pos (by simp [h])]
    · rw [if_neg h, if_neg (by simp [h])]


/-- C9: the normalizer is total by construction (a Lean function over
arbitrary character lists), and for empty or all-whitespace input it
returns the empty string.  The empty input is the vacuous instance of the
hypothesis. -/
theorem c9_clean_text_whitespace (s : Str)
    (h : ∀ c ∈ s, isSpacePy c = true) : clean_text s = [] :=
  clean_text_of_space h

/-- C9 witness: instantiation at the all-whitespace input "  \t ". -/
theorem c9_clean_text_whitespace_witness :
    (∀ c ∈ str "  \t ", isSpacePy c = true) ∧ clean_text (str "  \t ") = [] :=
  ⟨by decide, c9_clean_text_whitespace (str "  \t ") (by decide)⟩

/-- C10: the fold key is invariant under prior cleaning: for every string,
`normalize_for_match (clean_text x) = normalize_for_match x`, so rule-(b)
fold matching gives the same result on raw text and on cleaned text. -/
theorem c10_fold_of_clean (s : Str) :
    normalize_for_match (clean_text s) = normalize_for_match s :=
  normalize_clean_text s

/-- C6: the normalizer is idempotent:
`clean_text (clean_text x) = clean_text x` for every `x`. -/
theorem c6_clean_text_idem (s : Str) :
    clean_text (clean_text s) = clean_text s :=
  clean_text_idem s


end PyQM
